import Mathlib

/-!
Verification of the tmap Mapper core (`tmap/tda/mapper.py`).

The two stages of the pipeline are shallowly embedded:
  * `Mapper.filter` — the projection stage (`Mapper.filter` in the source);
  * `Mapper.map`    — the mapping / graph-construction stage (`Mapper.map`).

Matrices (`numpy` 2-d arrays / `pandas` DataFrames) are embedded as lists of
rows of rationals.  Fallible numpy operations (fancy indexing with an
out-of-range index, boolean-mask indexing with a mismatched mask length,
`len(None)`) are embedded as `Option` / `Except` failures, mirroring the
exceptions Python raises.  The `assert` statements of the source become the
error branches of `Except`.  Verbosity/printing is pure logging in the source
and is not modelled.  The `params` key of the returned graph merely echoes the
cover's and clusterer's parameters verbatim and no claim refers to it, so it is
not modelled either.
-/

namespace TMap

/-- A two-dimensional numeric array: a list of rows. -/
abbrev Mat : Type := List (List ℚ)

/-- `shape[1]` of a (well-formed, rectangular) matrix: the length of its first
row, `0` for an empty matrix. -/
def width (m : Mat) : ℕ :=
  match m with
  | [] => 0
  | r :: _ => r.length

/-- A lens / filter capability: anything offering `fit_transform`
(`tmap.tda.filter.Filter`); the optional `metric` attribute is used only for
logging in the source and is not modelled. -/
structure Lens where
  fit_transform : Mat → Mat

/-- Errors of the projection stage.
`dataIsNone` embeds `raise Exception("Data must not be None.")` (line 35).
`lenOfNone` embeds the `TypeError` Python raises at `len(lens)` (line 44)
when the `lens` argument is `None` (its default value). -/
inductive FilterErr where
  | dataIsNone
  | lenOfNone
deriving DecidableEq

/-- `np.concatenate([a, b], axis=1)`: rows concatenated pairwise.  numpy
requires equal row counts; the theorems below carry that hypothesis, under
which `zipWith` agrees with numpy. -/
def hconcat (a b : Mat) : Mat :=
  List.zipWith (fun r s => r ++ s) a b

/-- The accumulation loop of `Mapper.filter` (lines 44-57): `projected_data`
starts as `None`; the first lens output replaces it, every further lens output
is concatenated along axis 1. -/
def filterLoop (d : Mat) : List Lens → Option Mat → Option Mat
  | [], acc => acc
  | f :: fs, none => filterLoop d fs (some (f.fit_transform d))
  | f :: fs, some p => filterLoop d fs (some (hconcat p (f.fit_transform d)))

/-- The projection stage, `Mapper.filter(data, lens=None)` (lines 21-64).
`data = None` raises; `lens = None` reaches `len(lens)` and raises a
`TypeError`; an empty lens list returns the data unchanged (assumed already
projected); otherwise the per-lens outputs on the *original* data are
concatenated along axis 1. -/
def Mapper.filter (data : Option Mat) (lens : Option (List Lens)) :
    Except FilterErr Mat :=
  match data with
  | none => .error .dataIsNone
  | some d =>
    match lens with
    | none => .error .lenOfNone
    | some ls =>
      if 0 < ls.length then .ok ((filterLoop d ls none).getD d)
      else .ok d

/-- The Cover capability consumed by `Mapper.map`: the total point count
(`cover.n_points`), the projected matrix (`cover.data`) and the hypercubes,
each a collection of point indices (`cover.hypercubes`).  `resolution` and
`overlap` are opaque parameters only echoed into the output `params` key and
are not modelled. -/
structure Cover where
  n_points : ℕ
  data : Mat
  hypercubes : List (List ℕ)

/-- The clusterer capability: its declared `metric` string, the value of
`get_params().get("min_samples", 1)` (`none` when the parameter is absent),
whether `"fit" in dir(clusterer)`, and the labelling `fit` computes
(`clusterer.labels_` after `clusterer.fit(subset)`). -/
structure Clusterer where
  metric : String
  min_samples : Option ℤ
  hasFit : Bool
  fit : Mat → List ℤ

/-- Errors of the mapping stage.
`rowCountMismatch` embeds `assert data.shape[0] == cover.n_points` (line 98);
`notSquare` embeds `assert data_vals.shape[0] == data_vals.shape[1]`
(line 118); `indexErr` embeds the `IndexError` numpy raises on fancy indexing
with an out-of-range index or on boolean-mask indexing with a mask whose
length differs from the array's. -/
inductive MapErr where
  | rowCountMismatch
  | notSquare
  | indexErr
deriving DecidableEq

/-- numpy fancy row indexing `m[idx]`: one row per index, failing (with
`IndexError`) if an index is out of range. -/
def selRows (m : Mat) : List ℕ → Option Mat
  | [] => some []
  | i :: is =>
    match m[i]?, selRows m is with
    | some r, some rest => some (r :: rest)
    | _, _ => none

/-- One row of numpy column indexing: `row[idx]`. -/
def rowSel (r : List ℚ) : List ℕ → Option (List ℚ)
  | [] => some []
  | j :: js =>
    match r[j]?, rowSel r js with
    | some x, some rest => some (x :: rest)
    | _, _ => none

/-- numpy column indexing `m[:, idx]` applied to every row. -/
def selCols (idx : List ℕ) : Mat → Option Mat
  | [] => some []
  | r :: rs =>
    match rowSel r idx, selCols idx rs with
    | some r', some rest => some (r' :: rest)
    | _, _ => none

/-- `np.unique`: the sorted list of distinct values, built by sorted
insertion. -/
def insertSorted (x : ℤ) : List ℤ → List ℤ
  | [] => [x]
  | y :: ys =>
    if x < y then x :: y :: ys
    else if x = y then y :: ys
    else y :: insertSorted x ys

/-- `np.unique(labels)`. -/
def npUnique (l : List ℤ) : List ℤ :=
  l.foldr insertSorted []

/-- The distinct labels a hypercube contributes nodes for: `np.unique` minus
the noise sentinel `-1` (lines 130-132). -/
def nonNoiseLabels (labels : List ℤ) : List ℤ :=
  (npUnique labels).filter (fun l => decide (l ≠ -1))

/-- `point_mask = np.zeros(n, dtype=bool); point_mask[idxs] = True`
(lines 133-134 / 139-140): the boolean mask of length `n` marking `idxs`.
All indices written are `< n` whenever this is reached (they were already
used to index `data_vals`). -/
def maskOf (n : ℕ) (idxs : List ℕ) : List Bool :=
  (List.range n).map (fun i => decide (i ∈ idxs))

/-- `cube_data_idx[clusterer.labels_ == label]` (line 134): the members of
`cube` at the positions carrying `label`. -/
def selectByLabel (cube : List ℕ) (labels : List ℤ) (l : ℤ) : List ℕ :=
  ((cube.zip labels).filter (fun q => decide (q.2 = l))).map (fun q => q.1)

/-- The subset handed to the clusterer for one hypercube (lines 121-124):
plain row selection, except that a `"precomputed"` metric selects the
principal submatrix (rows *and* columns). -/
def cubeData (c : Clusterer) (dv : Mat) (cube : List ℕ) : Option Mat :=
  if c.metric ≠ "precomputed" then selRows dv cube
  else (selRows dv cube).bind (selCols cube)

/-- The per-label node masks of one hypercube when the clusterer is
fit-capable (lines 129-136): one mask per distinct non-noise label, in
`np.unique` (ascending) order.  numpy's boolean-mask indexing fails when the
label array's length differs from the subset's — but only if a non-noise
label exists, since the indexing happens inside `if label != -1`. -/
def cubeMasksFit (n : ℕ) (cube : List ℕ) (labels : List ℤ) :
    Except MapErr (List (List Bool)) :=
  let ls := nonNoiseLabels labels
  if ls.isEmpty then .ok []
  else if labels.length = cube.length then
    .ok (ls.map (fun l => maskOf n (selectByLabel cube labels l)))
  else .error .indexErr

/-- The masks contributed by one hypercube (loop body, lines 120-142):
compute the subset, apply the minimum-sample gate, then either cluster
(fit-capable) or keep the whole subset as one node. -/
def cubeMasks (c : Clusterer) (dv : Mat) (minS : ℤ) (cube : List ℕ) :
    Except MapErr (List (List Bool)) :=
  match cubeData c dv cube with
  | none => .error .indexErr
  | some cd =>
    if minS ≤ (cd.length : ℤ) then
      if c.hasFit then cubeMasksFit dv.length cube (c.fit cd)
      else .ok [maskOf dv.length cube]
    else .ok []

/-- Appending masks to the node registry under consecutive ids starting at
`s` (`nodes[node_id] = point_mask; node_id += 1`, lines 135-136 / 141-142). -/
def withIds (s : ℕ) : List (List Bool) → List (ℕ × List Bool)
  | [] => []
  | m :: ms => (s, m) :: withIds (s + 1) ms

/-- One iteration of the hypercube loop acting on the
(node-registry, next-id) state. -/
def cubeStep (c : Clusterer) (dv : Mat) (minS : ℤ)
    (st : List (ℕ × List Bool) × ℕ) (cube : List ℕ) :
    Except MapErr (List (ℕ × List Bool) × ℕ) :=
  match cubeMasks c dv minS cube with
  | .error e => .error e
  | .ok ms => .ok (st.1 ++ withIds st.2 ms, st.2 + ms.length)

/-- The hypercube loop, `for cube in cubes` (lines 120-142), threading the
insertion-ordered node registry (the Python dict `nodes`) and the `node_id`
counter. -/
def runCubesFrom (c : Clusterer) (dv : Mat) (minS : ℤ) :
    List (ℕ × List Bool) × ℕ → List (List ℕ) →
    Except MapErr (List (ℕ × List Bool) × ℕ)
  | st, [] => .ok st
  | st, cube :: rest =>
    match cubeStep c dv minS st cube with
    | .error e => .error e
    | .ok st' => runCubesFrom c dv minS st' rest

/-- `data_idx[mask]` starting the index count at `s`: the (ascending)
positions at which the mask is true. -/
def trueIdxsFrom (s : ℕ) : List Bool → List ℕ
  | [] => []
  | b :: bs => (if b then [s] else []) ++ trueIdxsFrom (s + 1) bs

/-- `data_idx[mask]` (line 182): the positions at which the mask is true. -/
def trueIdxs (m : List Bool) : List ℕ :=
  trueIdxsFrom 0 m

/-- `np.any(a & b)` for two boolean masks (line 172). -/
def masksIntersect (a b : List Bool) : Bool :=
  (List.zipWith (fun x y => x && y) a b).any id

/-- `itertools.combinations(l, 2)` (line 171): every pair of an element with
a later element, in iteration order. -/
def combos {α : Type} : List α → List (α × α)
  | [] => []
  | x :: xs => xs.map (fun y => (x, y)) ++ combos xs

/-- Dictionary access `nodes[k]` on the node registry. -/
def nodesGet (ns : List (ℕ × List Bool)) (k : ℕ) : List Bool :=
  (ns.lookup k).getD []

/-- numpy boolean row selection `m[mask, :]` (line 158): the rows at the true
positions of the mask.  numpy requires `mask.length = m.length`; the theorems
carry that hypothesis. -/
def selByMask : Mat → List Bool → Mat
  | [], _ => []
  | _, [] => []
  | r :: rs, b :: bs => (if b then [r] else []) ++ selByMask rs bs

/-- Componentwise vector addition (numpy `+` on equal-length vectors). -/
def vecAdd (a b : List ℚ) : List ℚ :=
  List.zipWith (fun x y => x + y) a b

/-- The componentwise sum of a list of width-`w` rows, starting from
`np.zeros(w)`. -/
def vecSum (w : ℕ) (rows : Mat) : List ℚ :=
  rows.foldl vecAdd (List.replicate w 0)

/-- `np.average(rows, axis=0)` for a nonempty rectangular block of width `w`:
the componentwise mean. -/
def avgRows (w : ℕ) (rows : Mat) : List ℚ :=
  (vecSum w rows).map (fun x => x / (rows.length : ℚ))

/-- The assembled TDA graph (lines 183-193).  `adj` is the set of cells of
`adj_matrix` holding `1` (all other cells hold `NaN`); `node_positions`
stores `none` where `np.average` of an empty selection yields a NaN row;
`params` (line 194) echoes cover/clusterer parameters and is not modelled. -/
structure Graph where
  nodes : List (ℕ × List ℕ)
  edges : List (ℕ × ℕ)
  adj : List (ℕ × ℕ)
  sample_names : List ℕ
  node_keys : List ℕ
  node_positions : List (Option (List ℚ))
  node_sizes : List ℕ
deriving DecidableEq

/-- Graph assembly from the finished node registry (lines 154-194):
node keys in creation order, per-node positions (`np.zeros` plus the average
of the member rows of `cover.data`) and sizes, the upper-triangular adjacency
cells over `itertools.combinations`, the edge list from
`adj_matrix.stack(dropna=True)` (row-major over the present cells), the node
point-index lists `data_idx(nodes[node_id])`, and `sample_names` from the
0-based row range (an `n`-row DataFrame input would contribute its `n`-entry
index instead). -/
def buildGraph (data : Mat) (cover : Cover) (ns : List (ℕ × List Bool)) :
    Graph :=
  let keys := ns.map (fun p => p.1)
  let w := width cover.data
  let adjS := (combos keys).filter
    (fun p => masksIntersect (nodesGet ns p.1) (nodesGet ns p.2))
  let edges := keys.flatMap
    (fun a => (keys.filter (fun b => adjS.contains (a, b))).map (fun b => (a, b)))
  { nodes := ns.map (fun p => (p.1, trueIdxs p.2))
    edges := edges
    adj := adjS
    sample_names := List.range data.length
    node_keys := keys
    node_positions := ns.map (fun p =>
      let rows := selByMask cover.data p.2
      if rows.length = 0 then none
      else some (vecAdd (List.replicate w 0) (avgRows w rows)))
    node_sizes := ns.map (fun p => (selByMask cover.data p.2).length) }

/-- The mapping stage, `Mapper.map(data, cover, clusterer)` (lines 66-195):
check the row-count precondition, check squareness for a precomputed metric,
run the hypercube loop, return the empty result (`{}` in the source, `none`
here) when no node was created, and otherwise assemble the graph. -/
def Mapper.map (data : Mat) (cover : Cover) (c : Clusterer) :
    Except MapErr (Option Graph) :=
  if data.length = cover.n_points then
    if c.metric = "precomputed" ∧ data.length ≠ width data then
      .error .notSquare
    else
      match runCubesFrom c data (c.min_samples.getD 1) ([], 0) cover.hypercubes with
      | .error e => .error e
      | .ok (ns, _) =>
        if ns.isEmpty then .ok none
        else .ok (some (buildGraph data cover ns))
  else .error .rowCountMismatch

/-- The labels the clusterer produces for one hypercube's subset (used to
state properties of successful runs, where `cubeData` is always `some`). -/
def cubeLabels (c : Clusterer) (dv : Mat) (cube : List ℕ) : List ℤ :=
  c.fit ((cubeData c dv cube).getD [])

/-- The hypercubes surviving the minimum-sample gate, which on a successful
run compares the subset's row count — equal to the cube's length — with the
threshold. -/
def gateKeep (minS : ℤ) (cubes : List (List ℕ)) : List (List ℕ) :=
  cubes.filter (fun cube => decide (minS ≤ (cube.length : ℤ)))

/-- Point list of a node of the assembled graph. -/
def nodePts (g : Graph) (k : ℕ) : List ℕ :=
  (g.nodes.lookup k).getD []

/-- The concatenation of the per-hypercube mask lists, with the loop's
error propagation (the first failing hypercube aborts the run). -/
def allCubeMasks (c : Clusterer) (dv : Mat) (minS : ℤ) :
    List (List ℕ) → Except MapErr (List (List Bool))
  | [] => .ok []
  | cube :: rest =>
    match cubeMasks c dv minS cube with
    | .error e => .error e
    | .ok ms =>
      match allCubeMasks c dv minS rest with
      | .error e => .error e
      | .ok ms' => .ok (ms ++ ms')

/-! Concrete instances used to exhibit counterexamples and to instantiate
the hypotheses of the theorems below. -/

/-- A one-point raw data matrix. -/
def exData1 : Mat := [[0]]

/-- A clusterer without a `fit` attribute (`min_samples = 1`). -/
def exClusNoFit : Clusterer :=
  { metric := "euclidean", min_samples := some 1, hasFit := false,
    fit := fun _ => [] }

/-- A clusterer without a `fit` attribute and `min_samples = 0`. -/
def exClusMin0 : Clusterer :=
  { metric := "euclidean", min_samples := some 0, hasFit := false,
    fit := fun _ => [] }

/-- A fit-capable clusterer placing every subset into the single cluster 0. -/
def exClusFit1 : Clusterer :=
  { metric := "euclidean", min_samples := some 1, hasFit := true,
    fit := fun m => List.replicate m.length 0 }

/-- A fit-capable clusterer with `min_samples = 2`. -/
def exClusMin2 : Clusterer :=
  { metric := "euclidean", min_samples := some 2, hasFit := true,
    fit := fun m => List.replicate m.length 0 }

/-- A fit-capable clusterer that declares every point noise (label `-1`). -/
def exClusNoise : Clusterer :=
  { metric := "euclidean", min_samples := some 1, hasFit := true,
    fit := fun m => List.replicate m.length (-1) }

/-- A precomputed-metric clusterer. -/
def exClusPre : Clusterer :=
  { metric := "precomputed", min_samples := some 1, hasFit := true,
    fit := fun m => List.replicate m.length 0 }

/-- A cover whose two hypercubes both contain the single point 0. -/
def exCover1 : Cover := { n_points := 1, data := [[0]], hypercubes := [[0], [0]] }

/-- A cover with an empty hypercube followed by a singleton hypercube. -/
def exCover5 : Cover := { n_points := 1, data := [[0]], hypercubes := [[], [0]] }

/-- A cover with one singleton hypercube. -/
def exCover7 : Cover := { n_points := 1, data := [[0]], hypercubes := [[0]] }

/-- A cover declaring two points. -/
def exCover8 : Cover := { n_points := 2, data := [[0], [1]], hypercubes := [] }

/-- The node registry produced by mapping `exData1` / `exCover1` /
`exClusNoFit`: both hypercubes yield a whole-cube node over point 0. -/
def exNodes1 : List (ℕ × List Bool) := [(0, [true]), (1, [true])]

/-- The graph assembled from `exNodes1`. -/
def gEx1 : Graph := buildGraph exData1 exCover1 exNodes1

/-- The node registry produced by mapping `exData1` / `exCover5` /
`exClusMin0`: the empty hypercube passes the `min_samples = 0` gate and
yields a node with an all-false mask. -/
def exNodes5 : List (ℕ × List Bool) := [(0, [false]), (1, [true])]

/-- The graph assembled from `exNodes5`. -/
def gEx5 : Graph := buildGraph exData1 exCover5 exNodes5

/-- A concrete 2×2 matrix used for the precomputed-submatrix instance. -/
def exDist2 : Mat := [[1, 2], [3, 4]]

/-- A non-square matrix (1×2). -/
def exDataNS : Mat := [[0, 1]]

/-- A lens producing one column. -/
def exLensA : Lens := { fit_transform := fun m => m.map (fun _ => [1]) }

/-- A lens producing two columns. -/
def exLensB : Lens := { fit_transform := fun m => m.map (fun _ => [2, 3]) }

/-! ### Basic facts about the indexing primitives -/

theorem selRows_length {m : Mat} : ∀ {idx : List ℕ} {r : Mat},
    selRows m idx = some r → r.length = idx.length := by
  intro idx
  induction idx with
  | nil => intro r h; simp [selRows] at h; simp [← h]
  | cons i is ih =>
    intro r h
    simp only [selRows] at h
    rcases hm : m[i]? with _ | row <;> rw [hm] at h
    · exact absurd h (by simp)
    · rcases hr : selRows m is with _ | rest <;> rw [hr] at h
      · exact absurd h (by simp)
      · cases h; simp [ih hr]

theorem selRows_get {m : Mat} : ∀ {idx : List ℕ} {r : Mat},
    selRows m idx = some r → ∀ (k i : ℕ), idx[k]? = some i → r[k]? = m[i]? := by
  intro idx
  induction idx with
  | nil => intro r _ k i hk; simp at hk
  | cons j is ih =>
    intro r h k i hk
    simp only [selRows] at h
    rcases hm : m[j]? with _ | row <;> rw [hm] at h
    · exact absurd h (by simp)
    · rcases hr : selRows m is with _ | rest <;> rw [hr] at h
      · exact absurd h (by simp)
      · cases h
        cases k with
        | zero => simp at hk; subst hk; simpa using hm.symm
        | succ k' => simp at hk ⊢; exact ih hr k' i hk

theorem selRows_valid {m : Mat} : ∀ {idx : List ℕ} {r : Mat},
    selRows m idx = some r → ∀ i ∈ idx, i < m.length := by
  intro idx
  induction idx with
  | nil => intro r _ i hi; simp at hi
  | cons j is ih =>
    intro r h i hi
    simp only [selRows] at h
    rcases hm : m[j]? with _ | row <;> rw [hm] at h
    · exact absurd h (by simp)
    · rcases hr : selRows m is with _ | rest <;> rw [hr] at h
      · exact absurd h (by simp)
      · rcases List.mem_cons.1 hi with h1 | h2
        · subst h1
          by_contra hge
          rw [List.getElem?_eq_none (Nat.le_of_not_lt hge)] at hm
          exact absurd hm (by simp)
        · exact ih hr i h2

theorem selRows_isSome {m : Mat} : ∀ {idx : List ℕ},
    (∀ i ∈ idx, i < m.length) → ∃ r, selRows m idx = some r := by
  intro idx
  induction idx with
  | nil => intro _; exact ⟨[], rfl⟩
  | cons j is ih =>
    intro h
    obtain ⟨rest, hrest⟩ := ih (fun i hi => h i (List.mem_cons_of_mem _ hi))
    have hj : j < m.length := h j (List.mem_cons_self _ _)
    refine ⟨m[j] :: rest, ?_⟩
    simp [selRows, hrest, List.getElem?_eq_getElem hj]

theorem selRows_mem {m : Mat} : ∀ {idx : List ℕ} {r : Mat},
    selRows m idx = some r → ∀ row ∈ r, row ∈ m := by
  intro idx
  induction idx with
  | nil => intro r h row hrow; simp [selRows] at h; subst h; simp at hrow
  | cons j is ih =>
    intro r h row hrow
    simp only [selRows] at h
    rcases hm : m[j]? with _ | rj <;> rw [hm] at h
    · exact absurd h (by simp)
    · rcases hr : selRows m is with _ | rest <;> rw [hr] at h
      · exact absurd h (by simp)
      · cases h
        rcases List.mem_cons.1 hrow with h1 | h2
        · subst h1; exact List.getElem?_mem hm
        · exact ih hr row h2

theorem rowSel_length {r : List ℚ} : ∀ {idx : List ℕ} {v : List ℚ},
    rowSel r idx = some v → v.length = idx.length := by
  intro idx
  induction idx with
  | nil => intro v h; simp [rowSel] at h; simp [← h]
  | cons j js ih =>
    intro v h
    simp only [rowSel] at h
    rcases hx : r[j]? with _ | x <;> rw [hx] at h
    · exact absurd h (by simp)
    · rcases hr : rowSel r js with _ | rest <;> rw [hr] at h
      · exact absurd h (by simp)
      · cases h; simp [ih hr]

theorem rowSel_get {r : List ℚ} : ∀ {idx : List ℕ} {v : List ℚ},
    rowSel r idx = some v → ∀ (k j : ℕ), idx[k]? = some j → v[k]? = r[j]? := by
  intro idx
  induction idx with
  | nil => intro v _ k j hk; simp at hk
  | cons j0 js ih =>
    intro v h k j hk
    simp only [rowSel] at h
    rcases hx : r[j0]? with _ | x <;> rw [hx] at h
    · exact absurd h (by simp)
    · rcases hr : rowSel r js with _ | rest <;> rw [hr] at h
      · exact absurd h (by simp)
      · cases h
        cases k with
        | zero => simp at hk; subst hk; simpa using hx.symm
        | succ k' => simp at hk ⊢; exact ih hr k' j hk

theorem rowSel_isSome {r : List ℚ} : ∀ {idx : List ℕ},
    (∀ j ∈ idx, j < r.length) → ∃ v, rowSel r idx = some v := by
  intro idx
  induction idx with
  | nil => intro _; exact ⟨[], rfl⟩
  | cons j js ih =>
    intro h
    obtain ⟨rest, hrest⟩ := ih (fun i hi => h i (List.mem_cons_of_mem _ hi))
    have hj : j < r.length := h j (List.mem_cons_self _ _)
    exact ⟨r[j] :: rest, by simp [rowSel, hrest, List.getElem?_eq_getElem hj]⟩

theorem selCols_length {idx : List ℕ} : ∀ {m r : Mat},
    selCols idx m = some r → r.length = m.length := by
  intro m
  induction m with
  | nil => intro r h; simp [selCols] at h; simp [← h]
  | cons row rows ih =>
    intro r h
    simp only [selCols] at h
    rcases hx : rowSel row idx with _ | v <;> rw [hx] at h
    · exact absurd h (by simp)
    · rcases hr : selCols idx rows with _ | rest <;> rw [hr] at h
      · exact absurd h (by simp)
      · cases h; simp [ih hr]

theorem selCols_get {idx : List ℕ} : ∀ {m r : Mat},
    selCols idx m = some r →
    ∀ (k : ℕ) (row : List ℚ), m[k]? = some row → ∃ v, r[k]? = some v ∧ rowSel row idx = some v := by
  intro m
  induction m with
  | nil => intro r _ k row hk; simp at hk
  | cons r0 rows ih =>
    intro r h k row hk
    simp only [selCols] at h
    rcases hx : rowSel r0 idx with _ | v <;> rw [hx] at h
    · exact absurd h (by simp)
    · rcases hr : selCols idx rows with _ | rest <;> rw [hr] at h
      · exact absurd h (by simp)
      · cases h
        cases k with
        | zero => simp at hk; subst hk; exact ⟨v, by simp, hx⟩
        | succ k' => simp at hk ⊢; exact ih hr k' row hk

theorem selCols_isSome {idx : List ℕ} : ∀ {m : Mat},
    (∀ row ∈ m, ∀ j ∈ idx, j < row.length) → ∃ r, selCols idx m = some r := by
  intro m
  induction m with
  | nil => intro _; exact ⟨[], rfl⟩
  | cons r0 rows ih =>
    intro h
    obtain ⟨rest, hrest⟩ := ih (fun row hrow => h row (List.mem_cons_of_mem _ hrow))
    obtain ⟨v, hv⟩ := rowSel_isSome (h r0 (List.mem_cons_self _ _))
    exact ⟨v :: rest, by simp [selCols, hv, hrest]⟩

theorem cubeData_length {c : Clusterer} {dv : Mat} {cube : List ℕ} {cd : Mat}
    (h : cubeData c dv cube = some cd) : cd.length = cube.length := by
  by_cases hm : c.metric = "precomputed"
  · simp only [cubeData, hm] at h
    simp at h
    rcases h' : selRows dv cube with _ | r <;> rw [h'] at h
    · exact absurd h (by simp [Option.bind])
    · simp [Option.bind] at h
      rw [selCols_length h, selRows_length h']
  · simp only [cubeData, hm] at h
    simp [hm] at h
    exact (selRows_length h).trans rfl

theorem cubeData_valid {c : Clusterer} {dv : Mat} {cube : List ℕ} {cd : Mat}
    (h : cubeData c dv cube = some cd) : ∀ i ∈ cube, i < dv.length := by
  by_cases hm : c.metric = "precomputed"
  · simp only [cubeData, hm] at h
    simp at h
    rcases h' : selRows dv cube with _ | r <;> rw [h'] at h
    · exact absurd h (by simp [Option.bind])
    · exact selRows_valid h'
  · simp only [cubeData, hm] at h
    simp [hm] at h
    exact selRows_valid h

/-! ### Masks, labels and intersections -/

theorem maskOf_length (n : ℕ) (idxs : List ℕ) : (maskOf n idxs).length = n := by
  simp [maskOf]

theorem maskOf_getElem {n : ℕ} {idxs : List ℕ} {p : ℕ} (h : p < n) :
    (maskOf n idxs)[p]? = some (decide (p ∈ idxs)) := by
  simp [maskOf, List.getElem?_map, List.getElem?_range h]

theorem maskOf_true_iff {n : ℕ} {idxs : List ℕ} {p : ℕ} :
    (maskOf n idxs)[p]? = some true ↔ p < n ∧ p ∈ idxs := by
  constructor
  · intro h
    have hlt : p < n := by
      by_contra hge
      rw [List.getElem?_eq_none (by simpa [maskOf_length] using Nat.le_of_not_lt hge)] at h
      exact absurd h (by simp)
    rw [maskOf_getElem hlt] at h
    simp at h
    exact ⟨hlt, h⟩
  · rintro ⟨hlt, hmem⟩
    rw [maskOf_getElem hlt]
    simp [hmem]

theorem selectByLabel_mem {cube : List ℕ} {labels : List ℤ} {l : ℤ} {p : ℕ} :
    p ∈ selectByLabel cube labels l ↔ (p, l) ∈ cube.zip labels := by
  simp only [selectByLabel, List.mem_map, List.mem_filter]
  constructor
  · rintro ⟨⟨a, b⟩, ⟨hmem, hb⟩, ha⟩
    simp at hb ha
    rw [← ha, ← hb]
    exact hmem
  · intro h
    exact ⟨(p, l), ⟨h, by simp⟩, rfl⟩

theorem zip_nodup_snd_eq {cube : List ℕ} :
    ∀ {labels : List ℤ} {p : ℕ} {l1 l2 : ℤ}, cube.Nodup →
    (p, l1) ∈ cube.zip labels → (p, l2) ∈ cube.zip labels → l1 = l2 := by
  induction cube with
  | nil => intro labels p l1 l2 _ h1; simp at h1
  | cons a as ih =>
    intro labels p l1 l2 hnd h1 h2
    cases labels with
    | nil => simp at h1
    | cons b bs =>
      have hnd2 := List.nodup_cons.1 hnd
      simp only [List.zip_cons_cons, List.mem_cons] at h1 h2
      rcases h1 with h1 | h1 <;> rcases h2 with h2 | h2
      · rw [Prod.mk.injEq] at h1 h2
        rw [h1.2, h2.2]
      · exfalso
        rw [Prod.mk.injEq] at h1
        have := (List.of_mem_zip h2).1
        rw [← h1.1] at hnd2
        exact hnd2.1 this
      · exfalso
        rw [Prod.mk.injEq] at h2
        have := (List.of_mem_zip h1).1
        rw [← h2.1] at hnd2
        exact hnd2.1 this
      · exact ih hnd2.2 h1 h2

theorem masksIntersect_iff {a : List Bool} : ∀ {b : List Bool},
    masksIntersect a b = true ↔ ∃ i : ℕ, a[i]? = some true ∧ b[i]? = some true := by
  induction a with
  | nil =>
    intro b
    constructor
    · intro h; simp [masksIntersect] at h
    · rintro ⟨i, hi, _⟩; simp at hi
  | cons x xs ih =>
    intro b
    cases b with
    | nil =>
      constructor
      · intro h; simp [masksIntersect] at h
      · rintro ⟨i, _, hi⟩; simp at hi
    | cons y ys =>
      simp only [masksIntersect, List.zipWith_cons_cons, List.any_cons] at *
      constructor
      · intro h
        rcases Bool.or_eq_true_iff.1 h with h1 | h2
        · refine ⟨0, ?_, ?_⟩ <;> simp [id] at h1 ⊢
          · exact h1.1
          · exact h1.2
        · obtain ⟨i, hi1, hi2⟩ := ih.1 h2
          exact ⟨i + 1, by simpa using hi1, by simpa using hi2⟩
      · rintro ⟨i, hi1, hi2⟩
        cases i with
        | zero =>
          simp at hi1 hi2
          apply Bool.or_eq_true_iff.2
          left
          simp [id, hi1, hi2]
        | succ i' =>
          simp at hi1 hi2
          apply Bool.or_eq_true_iff.2
          right
          exact ih.2 ⟨i', hi1, hi2⟩

/-! ### True-index extraction and boolean row selection -/

theorem trueIdxsFrom_succ : ∀ (m : List Bool) (s : ℕ),
    trueIdxsFrom (s + 1) m = (trueIdxsFrom s m).map (fun p => p + 1) := by
  intro m
  induction m with
  | nil => intro s; simp [trueIdxsFrom]
  | cons b bs ih =>
    intro s
    simp only [trueIdxsFrom, List.map_append, ih (s + 1)]
    congr 1
    cases b <;> simp

theorem trueIdxsFrom_zero_mem : ∀ {m : List Bool} {p : ℕ},
    p ∈ trueIdxsFrom 0 m ↔ m[p]? = some true := by
  intro m
  induction m with
  | nil => intro p; simp [trueIdxsFrom]
  | cons b bs ih =>
    intro p
    rw [show trueIdxsFrom 0 (b :: bs) = (if b then [0] else []) ++ trueIdxsFrom 1 bs from rfl,
        show (1 : ℕ) = 0 + 1 from rfl, trueIdxsFrom_succ]
    cases p with
    | zero => cases b <;> simp
    | succ p2 =>
      have hmap : p2 + 1 ∈ (trueIdxsFrom 0 bs).map (fun p => p + 1) ↔ p2 ∈ trueIdxsFrom 0 bs := by
        simp [List.mem_map]
      cases b <;> simp only [List.mem_append, List.getElem?_cons_succ, hmap, ih] <;> simp

theorem trueIdxs_mem {m : List Bool} {p : ℕ} :
    p ∈ trueIdxs m ↔ m[p]? = some true :=
  trueIdxsFrom_zero_mem

theorem selByMask_eq {mask : List Bool} : ∀ {m : Mat}, m.length = mask.length →
    selByMask m mask = (trueIdxs mask).map (fun p => m[p]?.getD []) := by
  induction mask with
  | nil =>
    intro m hlen
    cases m with
    | nil => simp [selByMask, trueIdxs, trueIdxsFrom]
    | cons r rs => simp at hlen
  | cons b bs ih =>
    intro m hlen
    cases m with
    | nil => simp at hlen
    | cons r rs =>
      simp only [List.length_cons, Nat.succ.injEq] at hlen
      have hstep : trueIdxs (b :: bs) =
          (if b then [0] else []) ++ (trueIdxs bs).map (fun p => p + 1) := by
        have h1 : trueIdxsFrom 1 bs = (trueIdxsFrom 0 bs).map (fun p => p + 1) :=
          trueIdxsFrom_succ bs 0
        rw [show trueIdxs (b :: bs) = (if b then [0] else []) ++ trueIdxsFrom 1 bs from rfl, h1]
        rfl
      rw [hstep]
      simp only [List.map_append, List.map_map]
      have hcomp : ((fun p => (r :: rs)[p]?.getD []) ∘ fun p => p + 1) =
          (fun p => rs[p]?.getD []) := by
        funext q
        simp
      rw [hcomp]
      rw [show selByMask (r :: rs) (b :: bs) = (if b then [r] else []) ++ selByMask rs bs from rfl]
      rw [ih hlen]
      cases b <;> simp

theorem trueIdxsFrom_length_le : ∀ (m : List Bool) (s : ℕ),
    (trueIdxsFrom s m).length ≤ m.length := by
  intro m
  induction m with
  | nil => intro s; simp [trueIdxsFrom]
  | cons b bs ih =>
    intro s
    have h := ih (s + 1)
    simp only [trueIdxsFrom, List.length_append, List.length_cons]
    cases b <;> simp <;> omega

/-! ### Vector arithmetic -/

theorem vecAdd_replicate_zero : ∀ {v : List ℚ} {w : ℕ}, v.length = w →
    vecAdd (List.replicate w 0) v = v := by
  intro v
  induction v with
  | nil => intro w h; simp [← h, vecAdd]
  | cons x xs ih =>
    intro w h
    cases w with
    | zero => simp at h
    | succ w' =>
      simp only [List.length_cons, Nat.succ.injEq] at h
      simp only [List.replicate_succ, vecAdd, List.zipWith_cons_cons, zero_add]
      rw [← vecAdd, ih h]

theorem vecSum_length {w : ℕ} : ∀ {rows : Mat}, (∀ r ∈ rows, r.length = w) →
    (vecSum w rows).length = w := by
  have aux : ∀ (rows : Mat) (acc : List ℚ), acc.length = w →
      (∀ r ∈ rows, r.length = w) → (rows.foldl vecAdd acc).length = w := by
    intro rows
    induction rows with
    | nil => intro acc hacc _; simpa using hacc
    | cons r rs ih =>
      intro acc hacc hall
      simp only [List.foldl_cons]
      apply ih
      · simp [vecAdd, List.length_zipWith, hacc, hall r (List.mem_cons_self _ _)]
      · exact fun r' hr' => hall r' (List.mem_cons_of_mem _ hr')
  intro rows hall
  exact aux rows _ (by simp) hall

theorem avgRows_length {w : ℕ} {rows : Mat} (h : ∀ r ∈ rows, r.length = w) :
    (avgRows w rows).length = w := by
  simp [avgRows, vecSum_length h]

/-! ### `np.unique` -/

theorem insertSorted_mem {x a : ℤ} : ∀ {l : List ℤ},
    a ∈ insertSorted x l ↔ a = x ∨ a ∈ l := by
  intro l
  induction l with
  | nil => simp [insertSorted]
  | cons y ys ih =>
    by_cases h1 : x < y
    · simp [insertSorted, h1, List.mem_cons]
      try tauto
    · by_cases h2 : x = y
      · subst h2
        simp [insertSorted, lt_irrefl, List.mem_cons]
        try tauto
      · simp [insertSorted, h1, h2, List.mem_cons, ih]
        try tauto

theorem insertSorted_pairwise {x : ℤ} : ∀ {l : List ℤ},
    l.Pairwise (· < ·) → (insertSorted x l).Pairwise (· < ·) := by
  intro l
  induction l with
  | nil => intro _; simp [insertSorted]
  | cons y ys ih =>
    intro hp
    have hp2 := List.pairwise_cons.1 hp
    by_cases h1 : x < y
    · rw [show insertSorted x (y :: ys) = x :: y :: ys from by simp [insertSorted, h1]]
      apply List.pairwise_cons.2
      refine ⟨?_, hp⟩
      intro a ha
      rcases List.mem_cons.1 ha with h | h
      · rw [h]; exact h1
      · exact lt_trans h1 (hp2.1 a h)
    · by_cases h2 : x = y
      · rw [show insertSorted x (y :: ys) = y :: ys from by simp [insertSorted, h1, h2]]
        exact hp
      · rw [show insertSorted x (y :: ys) = y :: insertSorted x ys from by
          simp [insertSorted, h1, h2]]
        apply List.pairwise_cons.2
        refine ⟨?_, ih hp2.2⟩
        intro a ha
        rcases insertSorted_mem.1 ha with h | h
        · rw [h]
          rcases lt_trichotomy x y with h3 | h3 | h3
          · exact absurd h3 h1
          · exact absurd h3 h2
          · exact h3
        · exact hp2.1 a h

theorem npUnique_pairwise : ∀ (l : List ℤ), (npUnique l).Pairwise (· < ·) := by
  intro l
  induction l with
  | nil => simp [npUnique]
  | cons x xs ih => exact insertSorted_pairwise ih

theorem npUnique_nodup (l : List ℤ) : (npUnique l).Nodup :=
  (npUnique_pairwise l).imp ne_of_lt

theorem npUnique_mem {a : ℤ} : ∀ {l : List ℤ}, a ∈ npUnique l ↔ a ∈ l := by
  intro l
  induction l with
  | nil => simp [npUnique]
  | cons x xs ih =>
    simp only [npUnique, List.foldr_cons, insertSorted_mem, List.mem_cons]
    rw [← npUnique, ih]

theorem nonNoiseLabels_mem {a : ℤ} {labels : List ℤ} :
    a ∈ nonNoiseLabels labels ↔ a ∈ labels ∧ a ≠ -1 := by
  simp [nonNoiseLabels, List.mem_filter, npUnique_mem]

theorem nonNoiseLabels_nodup (labels : List ℤ) : (nonNoiseLabels labels).Nodup :=
  (npUnique_nodup labels).filter _

/-! ### The node registry -/

theorem withIds_length : ∀ (ms : List (List Bool)) (s : ℕ),
    (withIds s ms).length = ms.length := by
  intro ms
  induction ms with
  | nil => intro s; simp [withIds]
  | cons m ms ih => intro s; simp [withIds, ih]

theorem withIds_append : ∀ (ms ms' : List (List Bool)) (s : ℕ),
    withIds s (ms ++ ms') = withIds s ms ++ withIds (s + ms.length) ms' := by
  intro ms
  induction ms with
  | nil => intro ms' s; simp [withIds]
  | cons m ms ih =>
    intro ms' s
    have harith : s + 1 + ms.length = s + (ms.length + 1) := by omega
    rw [show withIds s ((m :: ms) ++ ms') = (s, m) :: withIds (s + 1) (ms ++ ms') from rfl, ih,
        show withIds s (m :: ms) = (s, m) :: withIds (s + 1) ms from rfl,
        List.cons_append, List.length_cons, harith]

theorem withIds_map_fst : ∀ (ms : List (List Bool)) (s : ℕ),
    (withIds s ms).map Prod.fst = List.range' s ms.length := by
  intro ms
  induction ms with
  | nil => intro s; simp [withIds]
  | cons m ms ih =>
    intro s
    rw [show (withIds s (m :: ms)).map Prod.fst = s :: (withIds (s + 1) ms).map Prod.fst from rfl,
        ih, List.length_cons, List.range'_succ]

theorem lookup_withIds : ∀ (ms : List (List Bool)) (s a : ℕ),
    List.lookup a (withIds s ms) = if s ≤ a then ms[a - s]? else none := by
  intro ms
  induction ms with
  | nil =>
    intro s a
    by_cases h : s ≤ a <;> simp [withIds, h]
  | cons m ms ih =>
    intro s a
    by_cases has : a = s
    · subst has
      simp [withIds, List.lookup_cons]
    · rw [show withIds s (m :: ms) = (s, m) :: withIds (s + 1) ms from rfl, List.lookup_cons]
      have hbeq : (a == s) = false := by simp [has]
      rw [hbeq]
      rw [ih (s + 1) a]
      by_cases hle : s ≤ a
      · have hle2 : s + 1 ≤ a := by omega
        rw [if_pos hle2, if_pos hle]
        have hsub : a - s = (a - (s + 1)) + 1 := by omega
        rw [hsub, List.getElem?_cons_succ]
      · have hle2 : ¬ s + 1 ≤ a := by omega
        rw [if_neg hle2, if_neg hle]

theorem mem_withIds : ∀ {ms : List (List Bool)} {s : ℕ} {q : ℕ × List Bool},
    q ∈ withIds s ms → ∃ j : ℕ, ms[j]? = some q.2 ∧ q.1 = s + j := by
  intro ms
  induction ms with
  | nil => intro s q h; simp [withIds] at h
  | cons m ms ih =>
    intro s q h
    rw [show withIds s (m :: ms) = (s, m) :: withIds (s + 1) ms from rfl] at h
    rcases List.mem_cons.1 h with h1 | h1
    · subst h1
      exact ⟨0, by simp, by simp⟩
    · obtain ⟨j, hj, hq⟩ := ih h1
      exact ⟨j + 1, by simpa using hj, by omega⟩

theorem combos_range' : ∀ (n s : ℕ) {a b : ℕ},
    (a, b) ∈ combos (List.range' s n) ↔ s ≤ a ∧ a < b ∧ b < s + n := by
  intro n
  induction n with
  | zero =>
    intro s a b
    simp only [List.range', combos]
    constructor
    · intro h; simp at h
    · intro h; omega
  | succ n ih =>
    intro s a b
    rw [List.range'_succ]
    simp only [combos, List.mem_append, List.mem_map, List.mem_range'_1, ih]
    constructor
    · rintro (⟨y, hy, heq⟩ | h)
      · rw [Prod.mk.injEq] at heq
        obtain ⟨ha, hb⟩ := heq
        omega
      · omega
    · rintro ⟨h1, h2, h3⟩
      by_cases ha : a = s
      · left
        exact ⟨b, by omega, by rw [ha]⟩
      · right
        omega

theorem combos_mem_of_mem {α : Type} : ∀ {l : List α} {a b : α},
    (a, b) ∈ combos l → a ∈ l ∧ b ∈ l := by
  intro l
  induction l with
  | nil => intro a b h; simp [combos] at h
  | cons x xs ih =>
    intro a b h
    simp only [combos, List.mem_append, List.mem_map] at h
    rcases h with ⟨y, hy, heq⟩ | h
    · rw [Prod.mk.injEq] at heq
      obtain ⟨ha, hb⟩ := heq
      subst ha
      subst hb
      exact ⟨List.mem_cons_self _ _, List.mem_cons_of_mem _ hy⟩
    · obtain ⟨ha, hb⟩ := ih h
      exact ⟨List.mem_cons_of_mem _ ha, List.mem_cons_of_mem _ hb⟩

theorem lookup_map_snd {β γ : Type} (f : β → γ) :
    ∀ (ns : List (ℕ × β)) (a : ℕ),
    List.lookup a (ns.map (fun p => (p.1, f p.2))) = (List.lookup a ns).map f := by
  intro ns
  induction ns with
  | nil => intro a; simp
  | cons q qs ih =>
    intro a
    rcases q with ⟨k, v⟩
    simp only [List.map_cons, List.lookup_cons]
    by_cases h : a = k
    · simp [h]
    · have hbeq : (a == k) = false := by simp [h]
      rw [hbeq]
      exact ih a

/-! ### Structure of the hypercube loop -/

theorem runCubesFrom_eq (c : Clusterer) (dv : Mat) (minS : ℤ) :
    ∀ (cubes : List (List ℕ)) (ns0 : List (ℕ × List Bool)) (c0 : ℕ),
    runCubesFrom c dv minS (ns0, c0) cubes =
      match allCubeMasks c dv minS cubes with
      | .error e => .error e
      | .ok ms => .ok (ns0 ++ withIds c0 ms, c0 + ms.length) := by
  intro cubes
  induction cubes with
  | nil => intro ns0 c0; simp [runCubesFrom, allCubeMasks, withIds]
  | cons cube rest ih =>
    intro ns0 c0
    rw [show runCubesFrom c dv minS (ns0, c0) (cube :: rest) =
        (match cubeStep c dv minS (ns0, c0) cube with
         | .error e => .error e
         | .ok st => runCubesFrom c dv minS st rest) from rfl]
    rcases h1 : cubeMasks c dv minS cube with e | ms
    · simp [cubeStep, allCubeMasks, h1]
    · simp only [cubeStep, h1]
      rw [ih]
      rcases h2 : allCubeMasks c dv minS rest with e | ms2
      · simp [allCubeMasks, h1, h2]
      · simp only [allCubeMasks, h1, h2]
        rw [withIds_append, List.length_append, List.append_assoc]
        congr 2
        omega

theorem cubeMasksFit_masks {n : ℕ} {cube : List ℕ} {labels : List ℤ}
    {ms : List (List Bool)} (h : cubeMasksFit n cube labels = .ok ms) :
    ms = (nonNoiseLabels labels).map (fun l => maskOf n (selectByLabel cube labels l)) ∧
    (nonNoiseLabels labels ≠ [] → labels.length = cube.length) := by
  by_cases he : (nonNoiseLabels labels).isEmpty
  · simp only [cubeMasksFit, he, if_pos] at h
    have he2 := List.isEmpty_iff.1 he
    constructor
    · rw [he2]
      simp at h ⊢
      exact h
    · intro hne
      exact absurd he2 hne
  · by_cases hl : labels.length = cube.length
    · simp only [cubeMasksFit, he, hl] at h
      simp at h
      exact ⟨h.symm, fun _ => hl⟩
    · simp only [cubeMasksFit, he, hl] at h
      simp at h

theorem cubeMasks_ok {c : Clusterer} {dv : Mat} {minS : ℤ} {cube : List ℕ}
    {ms : List (List Bool)} (h : cubeMasks c dv minS cube = .ok ms) :
    ∃ cd, cubeData c dv cube = some cd ∧ cd.length = cube.length ∧
      ms = (if minS ≤ (cube.length : ℤ) then
              (if c.hasFit then
                (nonNoiseLabels (c.fit cd)).map
                  (fun l => maskOf dv.length (selectByLabel cube (c.fit cd) l))
               else [maskOf dv.length cube])
            else []) := by
  unfold cubeMasks at h
  split at h
  · simp at h
  · rename_i cd hcd
    refine ⟨cd, hcd, cubeData_length hcd, ?_⟩
    rw [cubeData_length hcd] at h
    by_cases hg : minS ≤ (cube.length : ℤ)
    · rw [if_pos hg] at h ⊢
      by_cases hf : c.hasFit = true
      · rw [if_pos hf] at h ⊢
        exact (cubeMasksFit_masks h).1
      · rw [if_neg hf] at h ⊢
        simp at h
        exact h.symm
    · rw [if_neg hg] at h ⊢
      simp at h
      exact h

theorem allCubeMasks_ok_cons {c : Clusterer} {dv : Mat} {minS : ℤ}
    {cube : List ℕ} {rest : List (List ℕ)} {ms : List (List Bool)}
    (h : allCubeMasks c dv minS (cube :: rest) = .ok ms) :
    ∃ ms1 ms2, cubeMasks c dv minS cube = .ok ms1 ∧
      allCubeMasks c dv minS rest = .ok ms2 ∧ ms = ms1 ++ ms2 := by
  rw [show allCubeMasks c dv minS (cube :: rest) =
      (match cubeMasks c dv minS cube with
       | .error e => .error e
       | .ok ms1 =>
         match allCubeMasks c dv minS rest with
         | .error e => .error e
         | .ok ms2 => .ok (ms1 ++ ms2)) from rfl] at h
  rcases h1 : cubeMasks c dv minS cube with e | ms1 <;> rw [h1] at h
  · simp at h
  · rcases h2 : allCubeMasks c dv minS rest with e | ms2 <;> rw [h2] at h
    · simp at h
    · simp at h
      exact ⟨ms1, ms2, rfl, rfl, h.symm⟩

theorem allCubeMasks_mask_mem {c : Clusterer} {dv : Mat} {minS : ℤ} :
    ∀ {cubes : List (List ℕ)} {ms : List (List Bool)},
    allCubeMasks c dv minS cubes = .ok ms →
    ∀ m ∈ ms, ∃ cube ∈ cubes, ∃ ms1, cubeMasks c dv minS cube = .ok ms1 ∧ m ∈ ms1 := by
  intro cubes
  induction cubes with
  | nil =>
    intro ms h m hm
    simp [allCubeMasks] at h
    subst h
    simp at hm
  | cons cube rest ih =>
    intro ms h m hm
    obtain ⟨ms1, ms2, h1, h2, heq⟩ := allCubeMasks_ok_cons h
    subst heq
    rcases List.mem_append.1 hm with hmem | hmem
    · exact ⟨cube, List.mem_cons_self _ _, ms1, h1, hmem⟩
    · obtain ⟨cube2, hcube2, ms3, h3, hm3⟩ := ih h2 m hmem
      exact ⟨cube2, List.mem_cons_of_mem _ hcube2, ms3, h3, hm3⟩

theorem cubeMasks_mask_length {c : Clusterer} {dv : Mat} {minS : ℤ}
    {cube : List ℕ} {ms : List (List Bool)} (h : cubeMasks c dv minS cube = .ok ms) :
    ∀ m ∈ ms, m.length = dv.length := by
  obtain ⟨cd, hcd, hlen, hms⟩ := cubeMasks_ok h
  intro m hm
  subst hms
  by_cases hg : minS ≤ (cube.length : ℤ)
  · rw [if_pos hg] at hm
    by_cases hf : c.hasFit = true
    · rw [if_pos hf] at hm
      obtain ⟨l, _, hmap⟩ := List.mem_map.1 hm
      rw [← hmap, maskOf_length]
    · rw [if_neg hf] at hm
      simp at hm
      rw [hm, maskOf_length]
  · rw [if_neg hg] at hm
    simp at hm

theorem allCubeMasks_mask_length {c : Clusterer} {dv : Mat} {minS : ℤ}
    {cubes : List (List ℕ)} {ms : List (List Bool)}
    (h : allCubeMasks c dv minS cubes = .ok ms) :
    ∀ m ∈ ms, m.length = dv.length := by
  intro m hm
  obtain ⟨cube, _, ms1, h1, hm1⟩ := allCubeMasks_mask_mem h m hm
  exact cubeMasks_mask_length h1 m hm1

/-! ### Inversion of a successful `Mapper.map` and the shape of `buildGraph` -/

theorem map_ok_some {data : Mat} {cover : Cover} {c : Clusterer} {g : Graph}
    (h : Mapper.map data cover c = .ok (some g)) :
    data.length = cover.n_points ∧
    ∃ ms, allCubeMasks c data (c.min_samples.getD 1) cover.hypercubes = .ok ms ∧
      ms ≠ [] ∧ g = buildGraph data cover (withIds 0 ms) := by
  unfold Mapper.map at h
  by_cases hn : data.length = cover.n_points
  · rw [if_pos hn] at h
    by_cases hsq : c.metric = "precomputed" ∧ data.length ≠ width data
    · rw [if_pos hsq] at h
      simp at h
    · rw [if_neg hsq] at h
      rw [runCubesFrom_eq] at h
      rcases hall : allCubeMasks c data (c.min_samples.getD 1) cover.hypercubes
        with e | ms <;> rw [hall] at h
      · simp at h
      · refine ⟨hn, ms, rfl, ?_⟩
        by_cases hemp : ms = []
        · subst hemp
          simp [withIds] at h
        · have hne : withIds 0 ms ≠ [] := by
            intro h0
            have hl := withIds_length ms 0
            rw [h0] at hl
            simp at hl
            exact hemp (List.eq_nil_of_length_eq_zero (by omega))
          simp at h
          rw [if_neg hne] at h
          simp at h
          exact ⟨hemp, h.symm⟩
  · rw [if_neg hn] at h
    simp at h

theorem buildGraph_nodes (d : Mat) (cov : Cover) (ns : List (ℕ × List Bool)) :
    (buildGraph d cov ns).nodes = ns.map (fun p => (p.1, trueIdxs p.2)) := rfl

theorem buildGraph_node_keys (d : Mat) (cov : Cover) (ns : List (ℕ × List Bool)) :
    (buildGraph d cov ns).node_keys = ns.map (fun p => p.1) := rfl

theorem buildGraph_sample_names (d : Mat) (cov : Cover) (ns : List (ℕ × List Bool)) :
    (buildGraph d cov ns).sample_names = List.range d.length := rfl

theorem buildGraph_adj (d : Mat) (cov : Cover) (ns : List (ℕ × List Bool)) :
    (buildGraph d cov ns).adj = (combos (ns.map (fun p => p.1))).filter
      (fun p => masksIntersect (nodesGet ns p.1) (nodesGet ns p.2)) := rfl

theorem buildGraph_edges (d : Mat) (cov : Cover) (ns : List (ℕ × List Bool)) :
    (buildGraph d cov ns).edges = (ns.map (fun p => p.1)).flatMap
      (fun a => ((ns.map (fun p => p.1)).filter
        (fun b => ((buildGraph d cov ns).adj).contains (a, b))).map (fun b => (a, b))) := rfl

theorem buildGraph_node_positions (d : Mat) (cov : Cover) (ns : List (ℕ × List Bool)) :
    (buildGraph d cov ns).node_positions = ns.map (fun p =>
      if (selByMask cov.data p.2).length = 0 then none
      else some (vecAdd (List.replicate (width cov.data) 0)
        (avgRows (width cov.data) (selByMask cov.data p.2)))) := rfl

theorem buildGraph_node_sizes (d : Mat) (cov : Cover) (ns : List (ℕ × List Bool)) :
    (buildGraph d cov ns).node_sizes = ns.map (fun p => (selByMask cov.data p.2).length) := rfl

theorem nodesGet_withIds (ms : List (List Bool)) (k : ℕ) :
    nodesGet (withIds 0 ms) k = (ms[k]?).getD [] := by
  rw [nodesGet, lookup_withIds]
  simp

theorem node_keys_withIds (d : Mat) (cov : Cover) (ms : List (List Bool)) :
    (buildGraph d cov (withIds 0 ms)).node_keys = List.range ms.length := by
  rw [buildGraph_node_keys]
  rw [show (fun p : ℕ × List Bool => p.1) = Prod.fst from rfl, withIds_map_fst,
    ← List.range_eq_range']

theorem nodePts_withIds (d : Mat) (cov : Cover) (ms : List (List Bool)) (k : ℕ) :
    nodePts (buildGraph d cov (withIds 0 ms)) k = ((ms[k]?).map trueIdxs).getD [] := by
  rw [nodePts, buildGraph_nodes, lookup_map_snd trueIdxs, lookup_withIds]
  simp

theorem cubeData_isSome {c : Clusterer} {dv : Mat} {cube : List ℕ}
    (hvalid : ∀ i ∈ cube, i < dv.length)
    (hcols : c.metric = "precomputed" → ∀ row ∈ dv, ∀ i ∈ cube, i < row.length) :
    ∃ cd, cubeData c dv cube = some cd := by
  obtain ⟨r, hr⟩ := selRows_isSome hvalid
  by_cases hm : c.metric = "precomputed"
  · have hc : ∀ row ∈ r, ∀ j ∈ cube, j < row.length := by
      intro row hrow j hj
      exact hcols hm row (selRows_mem hr row hrow) j hj
    obtain ⟨cd, hcd⟩ := selCols_isSome hc
    refine ⟨cd, ?_⟩
    simp [cubeData, hm, hr, Option.bind, hcd]
  · exact ⟨r, by simp [cubeData, hm, hr]⟩

theorem cubeMasks_gate_fail {c : Clusterer} {dv : Mat} {minS : ℤ} {cube : List ℕ}
    (hcd : ∃ cd, cubeData c dv cube = some cd)
    (hgate : (cube.length : ℤ) < minS) : cubeMasks c dv minS cube = .ok [] := by
  obtain ⟨cd, hcd⟩ := hcd
  have hlen := cubeData_length hcd
  have hg : ¬ (minS ≤ (cd.length : ℤ)) := by
    rw [hlen]
    omega
  simp [cubeMasks, hcd, hg]

theorem allCubeMasks_nil_of {c : Clusterer} {dv : Mat} {minS : ℤ} :
    ∀ {cubes : List (List ℕ)}, (∀ cube ∈ cubes, cubeMasks c dv minS cube = .ok []) →
    allCubeMasks c dv minS cubes = .ok [] := by
  intro cubes
  induction cubes with
  | nil => intro _; rfl
  | cons cube rest ih =>
    intro h
    have h1 := h cube (List.mem_cons_self _ _)
    have h2 := ih (fun cu hcu => h cu (List.mem_cons_of_mem _ hcu))
    simp [allCubeMasks, h1, h2]

/-- C7: if zero nodes are created across all hypercubes — the hypercube loop
finishes with an empty node registry, whether because subsets fell below the
minimum-sample gate or because clustering produced only the noise label `-1`
— the mapping stage returns the empty result (`{}` in the source, `none`
here) immediately, without raising.  The second conjunct is the claim's
parenthetical special case, derived with no assumption on the loop's
outcome: when every hypercube's subset is below the minimum-sample
threshold (under the well-formedness the source needs to reach the gate:
in-range hypercube indices and a rectangular matrix), the result is empty.
The common hypotheses are the two assertions checked before the loop. -/
theorem C7_empty_graph (data : Mat) (cover : Cover) (c : Clusterer)
    (hn : data.length = cover.n_points)
    (hsq : c.metric = "precomputed" → data.length = width data) :
    (∀ ctr : ℕ,
      runCubesFrom c data (c.min_samples.getD 1) ([], 0) cover.hypercubes =
        .ok ([], ctr) →
      Mapper.map data cover c = .ok none) ∧
    ((∀ cube ∈ cover.hypercubes, ∀ i ∈ cube, i < data.length) →
     (∀ row ∈ data, row.length = width data) →
     (∀ cube ∈ cover.hypercubes, (cube.length : ℤ) < c.min_samples.getD 1) →
     Mapper.map data cover c = .ok none) := by
  have hsq2 : ¬ (c.metric = "precomputed" ∧ data.length ≠ width data) := by
    rintro ⟨h1, h2⟩
    exact h2 (hsq h1)
  constructor
  · intro ctr hrun
    unfold Mapper.map
    rw [if_pos hn, if_neg hsq2, hrun]
    rfl
  · intro hvalid hwidth hgate
    have hall : allCubeMasks c data (c.min_samples.getD 1) cover.hypercubes = .ok [] := by
      apply allCubeMasks_nil_of
      intro cube hcube
      apply cubeMasks_gate_fail
      · apply cubeData_isSome (hvalid cube hcube)
        intro hm row hrow i hi
        rw [hwidth row hrow, ← hsq hm]
        exact hvalid cube hcube i hi
      · exact hgate cube hcube
    unfold Mapper.map
    rw [if_pos hn, if_neg hsq2, runCubesFrom_eq, hall]
    simp [withIds]

/-- C7 witness: a clusterer that labels every point `-1` on a gated one-point
hypercube creates zero nodes, and the mapping stage returns the empty
result. -/
theorem C7_empty_graph_witness : Mapper.map exData1 exCover7 exClusNoise = .ok none :=
  (C7_empty_graph exData1 exCover7 exClusNoise rfl (by decide)).1 0 rfl

/-- C8: a raw-data row count different from the Cover's declared point count
makes `Mapper.map` fail fast with the row-count precondition error, whatever
the hypercubes are — no hypercube is ever processed. -/
theorem C8_row_count_precondition (data : Mat) (cover : Cover) (c : Clusterer)
    (h : data.length ≠ cover.n_points) :
    ∀ cubes2 : List (List ℕ),
      Mapper.map data ⟨cover.n_points, cover.data, cubes2⟩ c =
        .error MapErr.rowCountMismatch := by
  intro cubes2
  simp [Mapper.map, h]

/-- C8 witness: one row of data against a cover declaring two points. -/
theorem C8_row_count_precondition_witness :
    Mapper.map exData1 ⟨exCover8.n_points, exCover8.data, []⟩ exClusNoFit =
      .error MapErr.rowCountMismatch :=
  C8_row_count_precondition exData1 exCover8 exClusNoFit (by decide) []

/-- C9: the claim says an empty *or absent* lens list returns the points
unchanged.  The code returns the points unchanged for the empty list, but the
absent (`None`, the parameter's default) case reaches `len(lens)` and raises
a `TypeError`, contradicting the code's own comments ("if lens is None, data
is assumed to be projected data already").  This theorem evaluates both
cases of the embedding. -/
theorem C9_no_lens_behavior :
    Mapper.filter (some exData1) none = .error FilterErr.lenOfNone ∧
    Mapper.filter (some exData1) (some []) = .ok exData1 :=
  ⟨rfl, rfl⟩

theorem selCols_mem {idx : List ℕ} : ∀ {m r : Mat},
    selCols idx m = some r → ∀ v ∈ r, ∃ row ∈ m, rowSel row idx = some v := by
  intro m
  induction m with
  | nil =>
    intro r h v hv
    simp [selCols] at h
    subst h
    simp at hv
  | cons r0 rows ih =>
    intro r h v hv
    simp only [selCols] at h
    rcases hx : rowSel r0 idx with _ | v0 <;> rw [hx] at h
    · exact absurd h (by simp)
    · rcases hrest : selCols idx rows with _ | rest <;> rw [hrest] at h
      · exact absurd h (by simp)
      · cases h
        rcases List.mem_cons.1 hv with h1 | h1
        · subst h1
          exact ⟨r0, List.mem_cons_self _ _, hx⟩
        · obtain ⟨row, hrow, hsel⟩ := ih hrest v h1
          exact ⟨row, List.mem_cons_of_mem _ hrow, hsel⟩

/-- C3: for a `"precomputed"` metric, the subset handed to the clusterer for
a hypercube `I` is the principal submatrix — `|I|` rows, each of width `|I|`
(not the full-width `data[I]`), whose `(i, j)` entry is `data[I_i][I_j]` —
and a non-square matrix makes the mapping stage fail fast with a
precondition failure (the squareness assertion, or the row-count assertion
if that one fires first). -/
theorem C3_precomputed_submatrix (data : Mat) (c : Clusterer)
    (hm : c.metric = "precomputed") :
    (∀ (cube : List ℕ) (cd : Mat), cubeData c data cube = some cd →
      cd.length = cube.length ∧ (∀ row ∈ cd, row.length = cube.length) ∧
      ∀ (i j ci cj : ℕ), cube[i]? = some ci → cube[j]? = some cj →
        (cd[i]?.bind (fun r => r[j]?)) = (data[ci]?.bind (fun r => r[cj]?))) ∧
    (∀ cover : Cover, data.length ≠ width data →
      Mapper.map data cover c =
        .error (if data.length = cover.n_points then MapErr.notSquare
                else MapErr.rowCountMismatch)) := by
  constructor
  · intro cube cd h
    rw [show cubeData c data cube = (selRows data cube).bind (selCols cube) from by
      simp [cubeData, hm]] at h
    rcases hr : selRows data cube with _ | r <;> rw [hr] at h
    · exact absurd h (by simp [Option.bind])
    · simp only [Option.bind] at h
      refine ⟨by rw [selCols_length h, selRows_length hr], ?_, ?_⟩
      · intro row hrow
        obtain ⟨src, _, hsel⟩ := selCols_mem h row hrow
        exact rowSel_length hsel
      · intro i j ci cj hci hcj
        have hri : r[i]? = data[ci]? := selRows_get hr i ci hci
        rcases hrow : data[ci]? with _ | rowci
        · rw [hrow] at hri
          rw [show cd[i]? = none from ?_]
          · simp [Option.bind]
          · have hlen : cd.length = r.length := selCols_length h
            rw [List.getElem?_eq_none]
            rw [hlen]
            by_contra hlt
            rw [List.getElem?_eq_getElem (Nat.lt_of_not_le hlt)] at hri
            exact absurd hri.symm (by simp)
        · rw [hrow] at hri
          obtain ⟨v, hv, hsel⟩ := selCols_get h i rowci hri
          rw [hv]
          simp only [Option.bind]
          exact rowSel_get hsel j cj hcj
  · intro cover hne
    unfold Mapper.map
    by_cases hn : data.length = cover.n_points
    · rw [if_pos hn, if_pos ⟨hm, hne⟩, if_pos hn]
    · rw [if_neg hn, if_neg hn]

/-- C3 witness: the principal submatrix of a 2×2 matrix for `I = [1, 0]` has
`|I|` rows, and a 1×2 precomputed matrix aborts the mapping stage. -/
theorem C3_precomputed_submatrix_witness :
    ([[(4 : ℚ), 3], [2, 1]] : Mat).length = ([1, 0] : List ℕ).length ∧
    Mapper.map exDataNS exCover7 exClusPre =
      .error (if exDataNS.length = exCover7.n_points then MapErr.notSquare
              else MapErr.rowCountMismatch) :=
  ⟨((C3_precomputed_submatrix exDist2 exClusPre rfl).1 [1, 0] [[4, 3], [2, 1]] rfl).1,
   (C3_precomputed_submatrix exDataNS exClusPre rfl).2 exCover7 (by decide)⟩

/-- C6: with two lenses of output widths `w1` and `w2` on the same `n`-row
input, the projection stage applies each lens to the original input and
concatenates along axis 1: the result has `n` rows of width `w1 + w2`, its
first `w1` columns are the first lens's standalone output and the remaining
`w2` columns the second's. -/
theorem C6_projection_concat (d : Mat) (l1 l2 : Lens) (w1 w2 : ℕ)
    (h1 : (l1.fit_transform d).length = d.length)
    (h2 : (l2.fit_transform d).length = d.length)
    (h1w : ∀ row ∈ l1.fit_transform d, row.length = w1)
    (h2w : ∀ row ∈ l2.fit_transform d, row.length = w2) :
    Mapper.filter (some d) (some [l1, l2]) =
      .ok (hconcat (l1.fit_transform d) (l2.fit_transform d)) ∧
    (hconcat (l1.fit_transform d) (l2.fit_transform d)).length = d.length ∧
    (∀ row ∈ hconcat (l1.fit_transform d) (l2.fit_transform d), row.length = w1 + w2) ∧
    (∀ i : ℕ, ((hconcat (l1.fit_transform d) (l2.fit_transform d))[i]?).map
        (fun r => r.take w1) = (l1.fit_transform d)[i]?) ∧
    (∀ i : ℕ, ((hconcat (l1.fit_transform d) (l2.fit_transform d))[i]?).map
        (fun r => r.drop w1) = (l2.fit_transform d)[i]?) := by
  refine ⟨rfl, ?_, ?_, ?_, ?_⟩
  · rw [hconcat, List.length_zipWith, h1, h2]
    simp
  · intro row hrow
    obtain ⟨i, hi⟩ := List.mem_iff_getElem?.1 hrow
    rw [hconcat, List.getElem?_zipWith] at hi
    rcases ha : (l1.fit_transform d)[i]? with _ | r1 <;> rw [ha] at hi
    · simp at hi
    · rcases hb : (l2.fit_transform d)[i]? with _ | r2 <;> rw [hb] at hi
      · simp at hi
      · simp at hi
        rw [← hi, List.length_append, h1w r1 (List.getElem?_mem ha),
          h2w r2 (List.getElem?_mem hb)]
  · intro i
    rw [hconcat, List.getElem?_zipWith]
    rcases ha : (l1.fit_transform d)[i]? with _ | r1
    · rcases hb : (l2.fit_transform d)[i]? with _ | r2 <;> simp
    · rcases hb : (l2.fit_transform d)[i]? with _ | r2
      · exfalso
        have hi1 : i < (l1.fit_transform d).length := by
          by_contra hge
          rw [List.getElem?_eq_none (Nat.le_of_not_lt hge)] at ha
          exact absurd ha (by simp)
        have hi2 : (l2.fit_transform d).length ≤ i := by
          by_contra hlt
          rw [List.getElem?_eq_getElem (Nat.lt_of_not_le hlt)] at hb
          exact absurd hb (by simp)
        omega
      · simp only [Option.map_some']
        rw [← h1w r1 (List.getElem?_mem ha), List.take_left]
  · intro i
    rw [hconcat, List.getElem?_zipWith]
    rcases ha : (l1.fit_transform d)[i]? with _ | r1
    · rcases hb : (l2.fit_transform d)[i]? with _ | r2
      · simp
      · exfalso
        have hi2 : i < (l2.fit_transform d).length := by
          by_contra hge
          rw [List.getElem?_eq_none (Nat.le_of_not_lt hge)] at hb
          exact absurd hb (by simp)
        have hi1 : (l1.fit_transform d).length ≤ i := by
          by_contra hlt
          rw [List.getElem?_eq_getElem (Nat.lt_of_not_le hlt)] at ha
          exact absurd ha (by simp)
        omega
    · rcases hb : (l2.fit_transform d)[i]? with _ | r2
      · simp
      · simp only [Option.map_some']
        rw [← h1w r1 (List.getElem?_mem ha), List.drop_left]

/-- C6 witness: a one-column lens and a two-column lens on a one-row input. -/
theorem C6_projection_concat_witness :
    Mapper.filter (some exData1) (some [exLensA, exLensB]) =
      .ok (hconcat (exLensA.fit_transform exData1) (exLensB.fit_transform exData1)) :=
  (C6_projection_concat exData1 exLensA exLensB 1 2 rfl rfl (by decide) (by decide)).1

theorem withIds_map_snd : ∀ (ms : List (List Bool)) (s : ℕ),
    (withIds s ms).map Prod.snd = ms := by
  intro ms
  induction ms with
  | nil => intro s; simp [withIds]
  | cons m ms ih =>
    intro s
    rw [show (withIds s (m :: ms)).map Prod.snd = m :: (withIds (s + 1) ms).map Prod.snd
      from rfl, ih]

theorem gateKeep_cons (minS : ℤ) (cube : List ℕ) (rest : List (List ℕ)) :
    gateKeep minS (cube :: rest) =
      if minS ≤ (cube.length : ℤ) then cube :: gateKeep minS rest
      else gateKeep minS rest := by
  by_cases hg : minS ≤ (cube.length : ℤ) <;>
    simp [gateKeep, List.filter_cons, hg]

theorem allCubeMasks_fit_join {c : Clusterer} {dv : Mat} {minS : ℤ}
    (hfit : c.hasFit = true) :
    ∀ {cubes : List (List ℕ)} {ms : List (List Bool)},
    allCubeMasks c dv minS cubes = .ok ms →
    ms = (gateKeep minS cubes).flatMap (fun cube =>
      (nonNoiseLabels (cubeLabels c dv cube)).map
        (fun l => maskOf dv.length (selectByLabel cube (cubeLabels c dv cube) l))) := by
  intro cubes
  induction cubes with
  | nil =>
    intro ms h
    simp [allCubeMasks] at h
    subst h
    simp [gateKeep]
  | cons cube rest ih =>
    intro ms h
    obtain ⟨ms1, ms2, h1, h2, heq⟩ := allCubeMasks_ok_cons h
    obtain ⟨cd, hcd, hlen, hms1⟩ := cubeMasks_ok h1
    subst heq
    rw [ih h2, gateKeep_cons]
    have hcl : cubeLabels c dv cube = c.fit cd := by
      rw [cubeLabels, hcd]
      rfl
    by_cases hg : minS ≤ (cube.length : ℤ)
    · rw [if_pos hg, List.flatMap_cons]
      rw [hms1, if_pos hg, if_pos hfit, hcl]
    · rw [if_neg hg]
      rw [hms1, if_neg hg]
      rfl

/-- C2: on a successful run with a fit-capable clusterer, the node registry
is exactly one node per (gated hypercube, distinct non-noise label) pair, in
hypercube order then ascending (`np.unique`) label order; node ids are the
consecutive integers `0, 1, …` with none skipped or reused, and the `node_id`
counter ends at the node count; the non-noise label list of any subset is
duplicate-free and never contains `-1`; and the mask built for a label marks
a point iff that point sits at a subset position carrying that label. -/
theorem C2_node_creation (c : Clusterer) (dv : Mat) (minS : ℤ)
    (cubes : List (List ℕ)) (ns : List (ℕ × List Bool)) (ctr : ℕ)
    (hfit : c.hasFit = true)
    (h : runCubesFrom c dv minS ([], 0) cubes = .ok (ns, ctr)) :
    ns.map Prod.fst = List.range ns.length ∧ ctr = ns.length ∧
    ns.map Prod.snd = (gateKeep minS cubes).flatMap (fun cube =>
      (nonNoiseLabels (cubeLabels c dv cube)).map
        (fun l => maskOf dv.length (selectByLabel cube (cubeLabels c dv cube) l))) ∧
    (∀ labels : List ℤ, (nonNoiseLabels labels).Nodup ∧
      (-1 : ℤ) ∉ nonNoiseLabels labels) ∧
    (∀ (cube : List ℕ) (labels : List ℤ) (l : ℤ) (p : ℕ),
      (maskOf dv.length (selectByLabel cube labels l))[p]? = some true ↔
        (p < dv.length ∧ (p, l) ∈ cube.zip labels)) := by
  rw [runCubesFrom_eq] at h
  rcases hall : allCubeMasks c dv minS cubes with e | ms <;> rw [hall] at h
  · simp at h
  · simp only [List.nil_append] at h
    simp at h
    obtain ⟨hns, hctr⟩ := h
    subst hns
    refine ⟨?_, ?_, ?_, ?_, ?_⟩
    · rw [withIds_map_fst, withIds_length, ← List.range_eq_range']
    · rw [withIds_length]
      omega
    · rw [withIds_map_snd]
      exact allCubeMasks_fit_join hfit hall
    · intro labels
      refine ⟨nonNoiseLabels_nodup labels, ?_⟩
      intro hmem
      exact absurd rfl (nonNoiseLabels_mem.1 hmem).2
    · intro cube labels l p
      rw [maskOf_true_iff, selectByLabel_mem]

/-- C2 witness: one hypercube `[0]` on a one-point cloud, one cluster label
`0`: exactly one node, id `0`. -/
theorem C2_node_creation_witness :
    ([((0 : ℕ), [true])] : List (ℕ × List Bool)).map Prod.fst =
      List.range ([((0 : ℕ), [true])] : List (ℕ × List Bool)).length :=
  (C2_node_creation exClusFit1 [[0]] 1 [[0]] [(0, [true])] 1 rfl rfl).1

/-- C10: the masks a fit-capable clusterer produces from one hypercube (one
per distinct non-noise label) are pairwise disjoint — no point is marked by
two of them — and each marks only points of that hypercube's index set.
Disjointness uses the Cover contract that a hypercube is a *set* of indices
(no duplicates). -/
theorem C10_per_cube_masks (n : ℕ) (cube : List ℕ) (labels : List ℤ)
    (ms : List (List Bool)) (hnd : cube.Nodup)
    (h : cubeMasksFit n cube labels = .ok ms) :
    (∀ (i j : ℕ) (mi mj : List Bool), i ≠ j → ms[i]? = some mi → ms[j]? = some mj →
      ∀ p : ℕ, ¬(mi[p]? = some true ∧ mj[p]? = some true)) ∧
    (∀ m ∈ ms, ∀ p : ℕ, m[p]? = some true → p ∈ cube) := by
  obtain ⟨hms, _⟩ := cubeMasksFit_masks h
  subst hms
  constructor
  · rintro i j mi mj hij hi hj p ⟨hpi, hpj⟩
    rw [List.getElem?_map] at hi hj
    obtain ⟨li, hli, hmi⟩ := Option.map_eq_some'.1 hi
    obtain ⟨lj, hlj, hmj⟩ := Option.map_eq_some'.1 hj
    rw [← hmi] at hpi
    rw [← hmj] at hpj
    have hzi := selectByLabel_mem.1 (maskOf_true_iff.1 hpi).2
    have hzj := selectByLabel_mem.1 (maskOf_true_iff.1 hpj).2
    have hll : li = lj := zip_nodup_snd_eq hnd hzi hzj
    apply hij
    have hlt : i < (nonNoiseLabels labels).length := by
      by_contra hge
      rw [List.getElem?_eq_none (Nat.le_of_not_lt hge)] at hli
      exact absurd hli (by simp)
    refine List.getElem?_inj hlt (nonNoiseLabels_nodup labels) ?_
    rw [hli, hlj, hll]
  · intro m hm p hp
    obtain ⟨l, _, hmap⟩ := List.mem_map.1 hm
    rw [← hmap] at hp
    exact (List.of_mem_zip (selectByLabel_mem.1 (maskOf_true_iff.1 hp).2)).1

/-- C10 witness: the hypercube `[0, 1]` with labels `[0, 1]` yields two
disjoint masks; point 0 is not marked by both. -/
theorem C10_per_cube_masks_witness :
    ¬((([true, false, false] : List Bool))[0]? = some true ∧
      (([false, true, false] : List Bool))[0]? = some true) :=
  (C10_per_cube_masks 3 [0, 1] [0, 1] [[true, false, false], [false, true, false]]
    (by decide) rfl).1 0 1 [true, false, false] [false, true, false]
    (by decide) rfl rfl 0

/-! ### Adjacency cells and the edge list -/

theorem adj_mem_iff (d : Mat) (cov : Cover) (ms : List (List Bool)) (a b : ℕ) :
    ((a, b) ∈ (buildGraph d cov (withIds 0 ms)).adj) ↔
      (a < b ∧ b < ms.length ∧
        masksIntersect ((ms[a]?).getD []) ((ms[b]?).getD []) = true) := by
  rw [buildGraph_adj, List.mem_filter]
  have hkeys : (withIds 0 ms).map (fun p => p.1) = List.range' 0 ms.length :=
    withIds_map_fst ms 0
  rw [hkeys, combos_range', nodesGet_withIds, nodesGet_withIds]
  constructor
  · rintro ⟨⟨_, h1, h2⟩, h3⟩
    exact ⟨h1, by omega, h3⟩
  · rintro ⟨h1, h2, h3⟩
    exact ⟨⟨Nat.zero_le a, h1, by omega⟩, h3⟩

theorem edges_mem_iff (d : Mat) (cov : Cover) (ms : List (List Bool)) (a b : ℕ) :
    ((a, b) ∈ (buildGraph d cov (withIds 0 ms)).edges) ↔
      (a, b) ∈ (buildGraph d cov (withIds 0 ms)).adj := by
  rw [buildGraph_edges, List.mem_flatMap]
  constructor
  · rintro ⟨k, hk, hmem⟩
    rw [List.mem_map] at hmem
    obtain ⟨b2, hb2, heq⟩ := hmem
    rw [Prod.mk.injEq] at heq
    obtain ⟨hka, hbb⟩ := heq
    subst hka
    subst hbb
    rw [List.mem_filter] at hb2
    exact List.elem_iff.1 hb2.2
  · intro hadj
    have hcomb := List.mem_filter.1 (by rw [buildGraph_adj] at hadj; exact hadj)
    obtain ⟨hma, hmb⟩ := combos_mem_of_mem hcomb.1
    refine ⟨a, hma, ?_⟩
    rw [List.mem_map]
    refine ⟨b, ?_, rfl⟩
    rw [List.mem_filter]
    exact ⟨hmb, List.elem_iff.2 hadj⟩

/-- C1 counterexample: two nodes sharing a point.  The adjacency cell `(0, 1)`
is present but `(1, 0)` is not (the source only fills the upper triangle via
`itertools.combinations`), so the adjacency table of this returned graph is
not symmetric, refuting the claim as stated. -/
theorem C1_counterexample :
    Mapper.map exData1 exCover1 exClusNoFit = .ok (some gEx1) ∧
    (0, 1) ∈ gEx1.adj ∧ (0, 1) ∈ gEx1.edges ∧
    (1, 0) ∉ gEx1.adj ∧ (1, 0) ∉ gEx1.edges := by
  refine ⟨rfl, by decide, by decide, by decide, by decide⟩

/-- C1 amended: for every graph returned by the mapping stage and all
distinct node ids `a`, `b`, an edge between them is reported — in exactly one
orientation — iff their point sets intersect; the adjacency table is
upper-triangular rather than symmetric: the cell `(a, b)` is present iff
`a < b` and the point sets intersect (so of a pair of cells `(a, b)`/`(b, a)`
at most one is ever present); and the edge list contains exactly the present
adjacency cells. -/
theorem C1_edges_and_adjacency (data : Mat) (cover : Cover) (c : Clusterer)
    (g : Graph) (h : Mapper.map data cover c = .ok (some g)) :
    ∀ a b : ℕ, a ∈ g.node_keys → b ∈ g.node_keys → a ≠ b →
      (((a, b) ∈ g.edges ∨ (b, a) ∈ g.edges) ↔
        ∃ p : ℕ, p ∈ nodePts g a ∧ p ∈ nodePts g b) ∧
      ((a, b) ∈ g.adj ↔ (a < b ∧ ∃ p : ℕ, p ∈ nodePts g a ∧ p ∈ nodePts g b)) ∧
      ((a, b) ∈ g.edges ↔ (a, b) ∈ g.adj) := by
  obtain ⟨hn, ms, hall, hnemp, hg⟩ := map_ok_some h
  subst hg
  intro a b ha hb hab
  rw [node_keys_withIds, List.mem_range] at ha hb
  have hshare : ∀ x y : ℕ, x < ms.length → y < ms.length →
      (masksIntersect ((ms[x]?).getD []) ((ms[y]?).getD []) = true ↔
        ∃ p : ℕ, p ∈ nodePts (buildGraph data cover (withIds 0 ms)) x ∧
          p ∈ nodePts (buildGraph data cover (withIds 0 ms)) y) := by
    intro x y hx hy
    rw [masksIntersect_iff, nodePts_withIds, nodePts_withIds,
      List.getElem?_eq_getElem hx, List.getElem?_eq_getElem hy]
    simp only [Option.getD_some, Option.map_some']
    exact exists_congr fun p => by rw [trueIdxs_mem, trueIdxs_mem]
  refine ⟨?_, ?_, ?_⟩
  · rw [edges_mem_iff, edges_mem_iff, adj_mem_iff, adj_mem_iff]
    constructor
    · rintro (⟨_, _, hint⟩ | ⟨_, _, hint⟩)
      · exact (hshare a b ha hb).1 hint
      · obtain ⟨p, h1, h2⟩ := (hshare b a hb ha).1 hint
        exact ⟨p, h2, h1⟩
    · intro hsh
      rcases Nat.lt_or_ge a b with hlt | hge
      · left
        exact ⟨hlt, hb, (hshare a b ha hb).2 hsh⟩
      · right
        have hlt : b < a := by omega
        obtain ⟨p, h1, h2⟩ := hsh
        exact ⟨hlt, ha, (hshare b a hb ha).2 ⟨p, h2, h1⟩⟩
  · rw [adj_mem_iff]
    constructor
    · rintro ⟨h1, h2, h3⟩
      exact ⟨h1, (hshare a b ha hb).1 h3⟩
    · rintro ⟨h1, hsh⟩
      exact ⟨h1, hb, (hshare a b ha hb).2 hsh⟩
  · exact edges_mem_iff data cover ms a b

/-- C1 witness: in the two-node one-point graph, the cell `(0, 1)` is
present because both nodes contain point 0. -/
theorem C1_edges_and_adjacency_witness : ((0 : ℕ), (1 : ℕ)) ∈ gEx1.adj :=
  ((C1_edges_and_adjacency exData1 exCover1 exClusNoFit gEx1 rfl 0 1
    (by decide) (by decide) (by decide)).2.1).mpr
    ⟨by decide, 0, by decide, by decide⟩

theorem getElem?_withIds : ∀ (ms : List (List Bool)) (s k : ℕ),
    (withIds s ms)[k]? = (ms[k]?).map (fun m => (s + k, m)) := by
  intro ms
  induction ms with
  | nil => intro s k; simp [withIds]
  | cons m ms ih =>
    intro s k
    cases k with
    | zero => simp [withIds]
    | succ k2 =>
      rw [show withIds s (m :: ms) = (s, m) :: withIds (s + 1) ms from rfl,
        List.getElem?_cons_succ, List.getElem?_cons_succ, ih (s + 1) k2]
      have harith : s + 1 + k2 = s + (k2 + 1) := by omega
      rw [harith]

theorem trueIdxs_lt {m : List Bool} {p : ℕ} (h : p ∈ trueIdxs m) : p < m.length :=
  (List.getElem?_eq_some_iff.1 (trueIdxs_mem.1 h)).1

/-- C4: in every returned graph, the ordered position and size arrays are
aligned index-by-index with the node-key list; at index `i` (holding node
key `k`) the size is the node's member count and the position is the
coordinate-wise average, over the node's member points, of the rows of the
Cover's projected matrix `cover.data` (not the raw points).  The Cover
contract — `cover.data` has one row per point, of uniform width — is the
hypothesis numpy's indexing and broadcasting impose. -/
theorem C4_positions_sizes (data : Mat) (cover : Cover) (c : Clusterer) (g : Graph)
    (h : Mapper.map data cover c = .ok (some g))
    (hcov : cover.data.length = data.length)
    (hw : ∀ row ∈ cover.data, row.length = width cover.data) :
    g.node_positions.length = g.node_keys.length ∧
    g.node_sizes.length = g.node_keys.length ∧
    ∀ (i k : ℕ), g.node_keys[i]? = some k →
      (g.node_sizes[i]? = some (nodePts g k).length ∧
       (nodePts g k ≠ [] → g.node_positions[i]? =
         some (some (avgRows (width cover.data)
           ((nodePts g k).map (fun p => (cover.data[p]?).getD [])))))) := by
  obtain ⟨hn, ms, hall, hnemp, hg⟩ := map_ok_some h
  subst hg
  refine ⟨?_, ?_, ?_⟩
  · rw [buildGraph_node_positions, buildGraph_node_keys]
    simp
  · rw [buildGraph_node_sizes, buildGraph_node_keys]
    simp
  · intro i k hik
    rw [node_keys_withIds] at hik
    obtain ⟨hi, hk⟩ := List.getElem?_eq_some_iff.1 hik
    rw [List.length_range] at hi
    have hki : k = i := by
      rw [← hk]
      simp
    subst hki
    have hmem : ms[k] ∈ ms := List.getElem_mem hi
    have hmask_len : (ms[k]).length = data.length :=
      allCubeMasks_mask_length hall _ hmem
    have hcov2 : cover.data.length = (ms[k]).length := by
      rw [hmask_len, hcov]
    have hpts : nodePts (buildGraph data cover (withIds 0 ms)) k = trueIdxs ms[k] := by
      rw [nodePts_withIds, List.getElem?_eq_getElem hi]
      rfl
    have hsel : selByMask cover.data ms[k] =
        (trueIdxs ms[k]).map (fun p => (cover.data[p]?).getD []) :=
      selByMask_eq hcov2
    constructor
    · rw [buildGraph_node_sizes, List.getElem?_map, getElem?_withIds,
        List.getElem?_eq_getElem hi]
      simp only [Option.map_some']
      rw [hpts, hsel, List.length_map]
    · intro hne
      rw [hpts] at hne
      have hlen_ne : ¬ ((selByMask cover.data ms[k]).length = 0) := by
        rw [hsel, List.length_map]
        intro h0
        exact hne (List.eq_nil_of_length_eq_zero h0)
      rw [buildGraph_node_positions, List.getElem?_map, getElem?_withIds,
        List.getElem?_eq_getElem hi]
      simp only [Option.map_some']
      rw [if_neg hlen_ne]
      have hrows : ∀ r ∈ selByMask cover.data ms[k], r.length = width cover.data := by
        intro r hr
        rw [hsel] at hr
        obtain ⟨p, hp, hpr⟩ := List.mem_map.1 hr
        have hplt : p < cover.data.length := by
          rw [hcov2]
          exact trueIdxs_lt hp
        rw [← hpr, List.getElem?_eq_getElem hplt]
        exact hw _ (List.getElem_mem hplt)
      rw [vecAdd_replicate_zero (avgRows_length hrows)]
      rw [hpts, hsel]

/-- C4 witness: in the two-node graph over one point, the size slot aligned
with node key 0 holds that node's member count. -/
theorem C4_positions_sizes_witness :
    gEx1.node_sizes[0]? = some (nodePts gEx1 0).length :=
  ((C4_positions_sizes exData1 exCover1 exClusNoFit gEx1 rfl rfl
    (by decide)).2.2 0 0 rfl).1

theorem cubeMasks_nonempty {c : Clusterer} {dv : Mat} {minS : ℤ} {cube : List ℕ}
    {ms : List (List Bool)} (hmin : 1 ≤ minS)
    (h : cubeMasks c dv minS cube = .ok ms) :
    ∀ m ∈ ms, ∃ p : ℕ, m[p]? = some true := by
  unfold cubeMasks at h
  split at h
  · simp at h
  · rename_i cd hcd
    have hvalid := cubeData_valid hcd
    have hlen := cubeData_length hcd
    by_cases hg : minS ≤ (cd.length : ℤ)
    · rw [if_pos hg] at h
      have hcl : 1 ≤ cube.length := by
        have h2 : (1 : ℤ) ≤ (cd.length : ℤ) := le_trans hmin hg
        rw [hlen] at h2
        omega
      by_cases hf : c.hasFit = true
      · rw [if_pos hf] at h
        obtain ⟨hms, hlab⟩ := cubeMasksFit_masks h
        subst hms
        intro m hm
        obtain ⟨l, hl, hmap⟩ := List.mem_map.1 hm
        have hne : nonNoiseLabels (c.fit cd) ≠ [] := List.ne_nil_of_mem hl
        have hlab2 := hlab hne
        have hmemL : l ∈ c.fit cd := (nonNoiseLabels_mem.1 hl).1
        obtain ⟨j, hj⟩ := List.mem_iff_getElem?.1 hmemL
        have hjlt : j < (c.fit cd).length := (List.getElem?_eq_some_iff.1 hj).1
        have hjc : j < cube.length := by
          rw [← hlab2]
          exact hjlt
        have hzip : (cube[j], l) ∈ cube.zip (c.fit cd) :=
          List.getElem?_mem (List.getElem?_zip_eq_some.2 ⟨List.getElem?_eq_getElem hjc, hj⟩)
        refine ⟨cube[j], ?_⟩
        rw [← hmap]
        exact maskOf_true_iff.2
          ⟨hvalid _ (List.getElem_mem hjc), selectByLabel_mem.2 hzip⟩
      · rw [if_neg hf] at h
        simp at h
        subst h
        intro m hm
        simp at hm
        subst hm
        obtain ⟨p0, hp0⟩ : ∃ p0, p0 ∈ cube := by
          cases cube with
          | nil => simp at hcl
          | cons x xs => exact ⟨x, List.mem_cons_self _ _⟩
        exact ⟨p0, maskOf_true_iff.2 ⟨hvalid p0 hp0, hp0⟩⟩
    · rw [if_neg hg] at h
      simp at h
      subst h
      intro m hm
      simp at hm

/-- C5 counterexample: with a no-fit clusterer configured with
`min_samples = 0` (the gate parameter is taken from the clusterer without
validation), an *empty* hypercube passes the gate and creates node 0 with an
all-false membership mask; the run still returns a non-empty graph, so the
claim's "at least one True entry" fails on this returned graph. -/
theorem C5_counterexample :
    Mapper.map exData1 exCover5 exClusMin0 = .ok (some gEx5) ∧
    gEx5.sample_names.length = exData1.length ∧
    List.lookup 0 gEx5.nodes = some [] := by
  refine ⟨rfl, rfl, rfl⟩

/-- C5 amended: same statement restricted to runs whose minimum-sample
threshold is at least 1 (the default; the source reads the threshold from
the clusterer without validating it, so a zero threshold can admit an empty
hypercube as an empty node): the returned graph's `sample_names` has exactly
`n` entries, every created membership mask has length `n` and at least one
True entry, and every node's point-index list is non-empty with all values
in `[0, n)`. -/
theorem C5_row_invariance (data : Mat) (cover : Cover) (c : Clusterer) (g : Graph)
    (ns : List (ℕ × List Bool)) (ctr : ℕ)
    (hmin : 1 ≤ c.min_samples.getD 1)
    (h : Mapper.map data cover c = .ok (some g))
    (hrun : runCubesFrom c data (c.min_samples.getD 1) ([], 0) cover.hypercubes =
      .ok (ns, ctr)) :
    g.sample_names.length = data.length ∧
    (∀ q ∈ ns, q.2.length = data.length ∧ ∃ p : ℕ, q.2[p]? = some true) ∧
    (∀ q ∈ g.nodes, q.2 ≠ [] ∧ ∀ p ∈ q.2, p < data.length) := by
  obtain ⟨hn, ms, hall, hnemp, hg⟩ := map_ok_some h
  subst hg
  rw [runCubesFrom_eq, hall] at hrun
  simp at hrun
  obtain ⟨hns, _⟩ := hrun
  refine ⟨?_, ?_, ?_⟩
  · rw [buildGraph_sample_names, List.length_range]
  · intro q hq
    rw [← hns] at hq
    have hsnd : q.2 ∈ ms := by
      obtain ⟨j, hj, _⟩ := mem_withIds hq
      exact List.getElem?_mem hj
    refine ⟨allCubeMasks_mask_length hall _ hsnd, ?_⟩
    obtain ⟨cube, _, ms1, h1, hm1⟩ := allCubeMasks_mask_mem hall _ hsnd
    exact cubeMasks_nonempty hmin h1 _ hm1
  · intro q hq
    rw [buildGraph_nodes] at hq
    obtain ⟨q0, hq0, heq⟩ := List.mem_map.1 hq
    have hsnd : q0.2 ∈ ms := by
      obtain ⟨j, hj, _⟩ := mem_withIds hq0
      exact List.getElem?_mem hj
    obtain ⟨cube, _, ms1, h1, hm1⟩ := allCubeMasks_mask_mem hall _ hsnd
    obtain ⟨p, hp⟩ := cubeMasks_nonempty hmin h1 _ hm1
    rw [← heq]
    constructor
    · apply List.ne_nil_of_mem
      exact trueIdxs_mem.2 hp
    · intro p2 hp2
      have hlt := trueIdxs_lt hp2
      rw [allCubeMasks_mask_length hall _ hsnd] at hlt
      exact hlt

/-- C5 witness: the two-node graph over one point with the default
`min_samples = 1` satisfies all three invariants; here, the sample-name
count. -/
theorem C5_row_invariance_witness : gEx1.sample_names.length = exData1.length :=
  (C5_row_invariance exData1 exCover1 exClusNoFit gEx1 exNodes1 2 (by decide)
    rfl rfl).1

end TMap
